import Mathlib

/-!
Verification of the concurrent prime-counter (`new_primeCounter.c`).

The development shallowly embeds the program:
* `isPrime` — the trial-division primality test (lines 43-55), with the
  `for (int i = 5; i * i <= n; i += 6)` loop rendered as a fueled
  recursion (`isPrimeAux`); the fuel passed by `isPrime` is always
  sufficient, which the lemmas below establish.
* a node-store model of the Michael–Scott queue (`createQueue`,
  `enqueue`, `dequeue`), where `malloc`ed nodes live in a growing list
  and pointers are indices;
* the bump-allocator memory pool (`allocateNode`);
* an interleaving small-step system (`SysStep`) for the producer
  (`main`, lines 229-242) and the workers (`primeCounterWorker`).
-/

namespace PrimeCounter

/-- Loop of `isPrime` (C lines 49-53): starting at `i`, while
`i * i <= n`, test divisibility by `i` and `i + 2`, stepping `i` by 6.
The C `for` loop is embedded with explicit fuel; callers supply enough
fuel that the `0` case is only reached once `i * i > n`. -/
def isPrimeAux (n : Nat) : Nat → Nat → Bool
  | _, 0 => true
  | i, fuel + 1 =>
    if i * i ≤ n then
      if n % i == 0 || n % (i + 2) == 0 then false
      else isPrimeAux n (i + 6) fuel
    else true

/-- `isPrime` (C lines 43-55): early exits for `n ≤ 1`, `n ≤ 3` and
multiples of 2 and 3, then the 6k ± 1 trial-division loop from 5. -/
def isPrime (n : Int) : Bool :=
  if n ≤ 1 then false
  else if n ≤ 3 then true
  else if n % 2 == 0 || n % 3 == 0 then false
  else isPrimeAux n.toNat 5 n.toNat

example : isPrime 2 = true := by decide
example : isPrime 9 = false := by decide
example : isPrime 97 = true := by decide
example : isPrime (-7) = false := by decide
example : List.filter (fun v => isPrime v) [1,2,3,4,5,6,7,8,9,10] = [2,3,5,7] := by decide

/-- If `n` is prime, every run of the trial-division loop reports no
divisor, whatever the fuel. -/
theorem isPrimeAux_of_prime (n : Nat) (hp : Nat.Prime n) :
    ∀ fuel i, 5 ≤ i → isPrimeAux n i fuel = true := by
  intro fuel
  induction fuel with
  | zero => intro i _; rfl
  | succ fuel ih =>
    intro i hi
    rw [isPrimeAux]
    by_cases hle : i * i ≤ n
    · rw [if_pos hle]
      have hni : n % i ≠ 0 := by
        intro h0
        rcases Nat.Prime.eq_one_or_self_of_dvd hp i (Nat.dvd_of_mod_eq_zero h0)
          with h1 | h1
        · omega
        · rw [← h1] at hle; nlinarith
      have hni2 : n % (i + 2) ≠ 0 := by
        intro h0
        rcases Nat.Prime.eq_one_or_self_of_dvd hp (i + 2) (Nat.dvd_of_mod_eq_zero h0)
          with h1 | h1
        · omega
        · rw [← h1] at hle; nlinarith
      rw [if_neg (by simp [hni, hni2])]
      exact ih (i + 6) (by omega)
    · rw [if_neg hle]

/-- If the trial-division loop starting at `i ≡ 5 (mod 6)` with enough
fuel returns `true`, then no `d ≥ i` with `d ≡ ±1 (mod 6)` and
`d * d ≤ n` divides `n`. -/
theorem isPrimeAux_no_div (n : Nat) :
    ∀ fuel i, n + 1 ≤ i + fuel → 5 ≤ i → i % 6 = 5 →
      isPrimeAux n i fuel = true →
      ∀ d, i ≤ d → d * d ≤ n → (d % 6 = 5 ∨ d % 6 = 1) → ¬ d ∣ n := by
  intro fuel
  induction fuel with
  | zero =>
    intro i hfuel hi5 _ _ d hid hdd _ _
    have hd : d ≤ d * d := by nlinarith
    omega
  | succ fuel ih =>
    intro i hfuel hi5 hmod htrue d hid hdd hdm hdvd
    rw [isPrimeAux] at htrue
    by_cases hle : i * i ≤ n
    · rw [if_pos hle] at htrue
      by_cases hguard : (n % i == 0 || n % (i + 2) == 0) = true
      · rw [if_pos hguard] at htrue; exact absurd htrue (by simp)
      · have hni : ¬ (n % i = 0 ∨ n % (i + 2) = 0) := by
          intro h; apply hguard; simp [h]
        rw [if_neg hguard] at htrue
        rcases Nat.eq_or_lt_of_le hid with heq | hlt
        · exact hni (Or.inl (by rw [heq]; exact Nat.mod_eq_zero_of_dvd hdvd))
        · by_cases hd2 : d = i + 2
          · exact hni (Or.inr (by rw [← hd2]; exact Nat.mod_eq_zero_of_dvd hdvd))
          · have hd6 : i + 6 ≤ d := by omega
            exact ih (i + 6) (by omega) (by omega) (by omega) htrue d hd6 hdd hdm hdvd
    · have : i * i ≤ d * d := Nat.mul_le_mul hid hid
      omega

/-- A prime `p ≥ 5` is congruent to `±1` modulo 6. -/
theorem prime_mod_six (p : Nat) (hp : Nat.Prime p) (h5 : 5 ≤ p) :
    p % 6 = 5 ∨ p % 6 = 1 := by
  have h2 : ¬ (2 ∣ p) := by
    intro h
    rcases Nat.Prime.eq_one_or_self_of_dvd hp 2 h with h1 | h1 <;> omega
  have h3 : ¬ (3 ∣ p) := by
    intro h
    rcases Nat.Prime.eq_one_or_self_of_dvd hp 3 h with h1 | h1 <;> omega
  omega

/-- `isPrimeAux` with starting index 5 and fuel `n` decides primality of
`n ≥ 5` once multiples of 2 and 3 are excluded. -/
theorem isPrimeAux_correct (n : Nat) (h5 : 5 ≤ n)
    (h2 : n % 2 ≠ 0) (h3 : n % 3 ≠ 0) :
    isPrimeAux n 5 n = true ↔ Nat.Prime n := by
  constructor
  · intro htrue
    by_contra hnp
    have hpf : Nat.Prime n.minFac := Nat.minFac_prime (by omega)
    have hdvd : n.minFac ∣ n := Nat.minFac_dvd n
    have hsq : n.minFac ^ 2 ≤ n := Nat.minFac_sq_le_self (by omega) hnp
    rw [pow_two] at hsq
    have hne2 : n.minFac ≠ 2 := by
      intro h; rw [h] at hdvd; omega
    have hne3 : n.minFac ≠ 3 := by
      intro h; rw [h] at hdvd; omega
    have hge2 : 2 ≤ n.minFac := hpf.two_le
    have hne4 : n.minFac ≠ 4 := by
      intro h; rw [h] at hpf; norm_num at hpf
    have hge5 : 5 ≤ n.minFac := by omega
    exact isPrimeAux_no_div n n 5 (by omega) (by omega) (by omega) htrue
      n.minFac hge5 hsq (prime_mod_six n.minFac hpf hge5) hdvd
  · intro hp
    exact isPrimeAux_of_prime n hp n 5 (by omega)

/-- `isPrime n` is `true` exactly when `n` is (a cast of) a prime
natural number. -/
theorem isPrime_eq_true_iff (n : Int) :
    isPrime n = true ↔ (2 ≤ n ∧ Nat.Prime n.toNat) := by
  by_cases h1 : n ≤ 1
  · rw [isPrime, if_pos h1]
    constructor
    · intro h; exact absurd h (by simp)
    · intro ⟨h, _⟩; omega
  · by_cases h3 : n ≤ 3
    · have : n = 2 ∨ n = 3 := by omega
      rcases this with rfl | rfl <;> decide
    · rw [isPrime, if_neg h1, if_neg h3]
      have hn4 : 4 ≤ n := by omega
      by_cases hmod : n % 2 = 0 ∨ n % 3 = 0
      · rw [if_pos (by rcases hmod with h | h <;> simp [h])]
        constructor
        · intro h; exact absurd h (by simp)
        · intro ⟨_, hp⟩
          have h2 : ¬ (2 ∣ n.toNat) := by
            intro h
            rcases Nat.Prime.eq_one_or_self_of_dvd hp 2 h with h' | h' <;> omega
          have h3' : ¬ (3 ∣ n.toNat) := by
            intro h
            rcases Nat.Prime.eq_one_or_self_of_dvd hp 3 h with h' | h' <;> omega
          omega
      · rw [if_neg (by push_neg at hmod; simp [hmod.1, hmod.2])]
        have hm5 : 5 ≤ n.toNat := by omega
        have hm2 : n.toNat % 2 ≠ 0 := by omega
        have hm3 : n.toNat % 3 ≠ 0 := by omega
        rw [isPrimeAux_correct n.toNat hm5 hm2 hm3]
        constructor
        · intro hp; exact ⟨by omega, hp⟩
        · intro ⟨_, hp⟩; exact hp

/-! ## The lock-free queue (C lines 13-23, 57-127)

Heap nodes are modelled as entries of a growing list (`malloc` returns
the next fresh index); pointers are indices, `none` is `NULL`.  The
CAS loops are embedded in their linearized (single-operation) form:
each iteration reads the shared state and its CAS succeeds, since no
other operation is interleaved inside a single call; the retry
structure of the source loops is kept, bounded by explicit fuel. -/

/-- Queue node (C lines 13-16). -/
structure Node where
  value : Int
  next : Option Nat
deriving DecidableEq

/-- Dereference an address in the node store (reading unallocated
memory yields a junk node; the invariants rule it out). -/
def getNode (mem : List Node) (a : Nat) : Node := (mem[a]?).getD ⟨0, none⟩

/-- The `next` field of the node at `a`. -/
def nextOf (mem : List Node) (a : Nat) : Option Nat := (getNode mem a).next

/-- The `value` field of the node at `a`. -/
def valOf (mem : List Node) (a : Nat) : Int := (getNode mem a).value

/-- Write the `next` field of the node at `a` (a CAS that succeeds). -/
def setNext (mem : List Node) (a : Nat) (nx : Option Nat) : List Node :=
  mem.set a { getNode mem a with next := nx }

/-- The queue structure (C lines 19-23): `head`, `tail` and the
advisory `size` counter. -/
structure Queue where
  mem : List Node
  head : Nat
  tail : Nat
  size : Int
deriving DecidableEq

/-- `createQueue` (C lines 58-74): one dummy node with `next = NULL`;
`head = tail = dummy`, `size = 0`.  The dummy's `value` field is left
uninitialized by the C code and never read; it is modelled as 0. -/
def createQueue : Queue := { mem := [⟨0, none⟩], head := 0, tail := 0, size := 0 }

/-- The CAS loop of `enqueue` (C lines 87-101): read `tail`; if
`tail->next` is `NULL`, link the new node and swing `tail` to it,
incrementing `size`; otherwise help advance `tail` and retry. -/
def enqueueLoop (newAddr : Nat) : Queue → Nat → Option Queue
  | _, 0 => none
  | q, fuel + 1 =>
    match nextOf q.mem q.tail with
    | none =>
      some { q with mem := setNext q.mem q.tail (some newAddr),
                    tail := newAddr, size := q.size + 1 }
    | some nxt => enqueueLoop newAddr { q with tail := nxt } fuel

/-- `enqueue` (C lines 77-102): `malloc` a fresh node holding `value`
with `next = NULL` (append to the store), then run the linking loop. -/
def enqueue (q : Queue) (value : Int) : Option Queue :=
  enqueueLoop q.mem.length { q with mem := q.mem ++ [⟨value, none⟩] } (q.mem.length + 1)

/-- The CAS loop of `dequeue` (C lines 107-126): if `head == tail`
and `head->next` is `NULL` the queue is empty and `-1` is returned
with no modification; if `head == tail` with a non-`NULL` next, the
lagging `tail` is advanced and the loop retries; otherwise the value
of `head->next` is read, `head` is swung forward and `size`
decremented. -/
def dequeueLoop : Queue → Nat → Option (Int × Queue)
  | _, 0 => none
  | q, fuel + 1 =>
    if q.head = q.tail then
      match nextOf q.mem q.head with
      | none => some (-1, q)
      | some nxt => dequeueLoop { q with tail := nxt } fuel
    else
      match nextOf q.mem q.head with
      | none => none
      | some nxt =>
        some (valOf q.mem nxt, { q with head := nxt, size := q.size - 1 })

/-- `dequeue` (C lines 105-127). -/
def dequeue (q : Queue) : Option (Int × Queue) := dequeueLoop q (q.mem.length + 1)

/-- `Chain mem a l`: from address `a`, following `next` links visits
exactly the addresses `l`, ending at a node whose `next` is `NULL`. -/
inductive Chain (mem : List Node) : Nat → List Nat → Prop
  | last (a : Nat) (h : nextOf mem a = none) : Chain mem a [a]
  | cons (a b : Nat) (l : List Nat) (h : nextOf mem a = some b)
      (t : Chain mem b l) : Chain mem a (a :: l)

/-- The sequence of stored values strictly after the sentinel. -/
def queueVals (mem : List Node) (l : List Nat) : List Int := l.tail.map (valOf mem)

/-- Structural invariant of the queue (spec §3): `head` points at the
sentinel, the `next` chain from it lists distinct allocated nodes,
`tail` is the final node of the chain, and `size` counts the
unconsumed nodes. -/
structure QInv (q : Queue) (l : List Nat) : Prop where
  chain : Chain q.mem q.head l
  nodup : l.Nodup
  bounded : ∀ a ∈ l, a < q.mem.length
  tail_last : l.getLast? = some q.tail
  size_eq : q.size = (l.length : Int) - 1

example : enqueue createQueue 5 = some ⟨[⟨0, some 1⟩, ⟨5, none⟩], 0, 1, 1⟩ := by decide
example : dequeue ⟨[⟨0, some 1⟩, ⟨5, none⟩], 0, 1, 1⟩ =
    some (5, ⟨[⟨0, some 1⟩, ⟨5, none⟩], 1, 1, 0⟩) := by decide
example : dequeue createQueue = some (-1, createQueue) := by decide

/-! ### Node-store lemmas -/

theorem getNode_append (mem : List Node) (x : Node) (a : Nat) (h : a < mem.length) :
    getNode (mem ++ [x]) a = getNode mem a := by
  unfold getNode
  rw [List.getElem?_append, if_pos h]

theorem getNode_append_self (mem : List Node) (x : Node) :
    getNode (mem ++ [x]) mem.length = x := by
  unfold getNode
  rw [List.getElem?_concat_length]
  rfl

theorem length_setNext (mem : List Node) (a : Nat) (nx : Option Nat) :
    (setNext mem a nx).length = mem.length := by
  unfold setNext; exact List.length_set mem a _

theorem getNode_setNext_ne (mem : List Node) (a b : Nat) (nx : Option Nat)
    (h : b ≠ a) : getNode (setNext mem a nx) b = getNode mem b := by
  unfold setNext getNode
  rw [List.getElem?_set, if_neg (fun hc => h hc.symm)]

theorem getNode_setNext_self (mem : List Node) (a : Nat) (nx : Option Nat)
    (h : a < mem.length) :
    getNode (setNext mem a nx) a = { getNode mem a with next := nx } := by
  unfold setNext getNode
  rw [List.getElem?_set, if_pos rfl, if_pos h]
  rfl

theorem valOf_setNext (mem : List Node) (a b : Nat) (nx : Option Nat) :
    valOf (setNext mem a nx) b = valOf mem b := by
  by_cases hb : b = a
  · subst hb
    by_cases hlt : b < mem.length
    · rw [valOf, getNode_setNext_self mem b nx hlt]; rfl
    · unfold valOf setNext getNode
      rw [List.getElem?_set, if_pos rfl, if_neg hlt,
        List.getElem?_eq_none (by omega)]
  · rw [valOf, getNode_setNext_ne mem a b nx hb]; rfl

theorem valOf_append (mem : List Node) (x : Node) (a : Nat) (h : a < mem.length) :
    valOf (mem ++ [x]) a = valOf mem a := by
  rw [valOf, getNode_append mem x a h]; rfl

/-! ### Chain lemmas -/

theorem chain_head (mem : List Node) (a : Nat) (l : List Nat)
    (hc : Chain mem a l) : ∃ l', l = a :: l' := by
  cases hc with
  | last a h => exact ⟨[], rfl⟩
  | cons a b l h t => exact ⟨l, rfl⟩

theorem mem_of_getLast? {α : Type} (l : List α) (a : α)
    (h : l.getLast? = some a) : a ∈ l := by
  cases l with
  | nil => simp at h
  | cons b l' =>
    rw [List.getLast?_eq_getLast_of_ne_nil (by simp)] at h
    have := Option.some.inj h
    rw [← this]
    exact List.getLast_mem _

theorem chain_last_next (mem : List Node) (a : Nat) (l : List Nat)
    (hc : Chain mem a l) : ∀ t, l.getLast? = some t → nextOf mem t = none := by
  induction hc with
  | last a h =>
    intro t ht
    have := Option.some.inj ht
    rw [← this]; exact h
  | cons a b l h tc ih =>
    intro t ht
    rcases chain_head mem b l tc with ⟨l', rfl⟩
    rw [List.getLast?_cons_cons] at ht
    exact ih t ht

theorem chain_append (mem : List Node) (x : Node) (a : Nat) (l : List Nat)
    (hc : Chain mem a l) (hb : ∀ b ∈ l, b < mem.length) :
    Chain (mem ++ [x]) a l := by
  induction hc with
  | last a h =>
    exact Chain.last a (by
      rw [nextOf, getNode_append mem x a (hb a (by simp))]; exact h)
  | cons a b l h tc ih =>
    exact Chain.cons a b l (by
      rw [nextOf, getNode_append mem x a (hb a (by simp))]; exact h)
      (ih (fun c hc' => hb c (by simp [hc'])))

/-- Linking a fresh node after the final node of a chain extends the
chain by that node. -/
theorem chain_snoc (mem : List Node) (a t : Nat) (l : List Nat) (v : Int)
    (hc : Chain mem a l) (hb : ∀ b ∈ l, b < mem.length)
    (ht : l.getLast? = some t) :
    Chain (setNext (mem ++ [⟨v, none⟩]) t (some mem.length)) a
      (l ++ [mem.length]) := by
  induction hc with
  | last a h =>
    have hta : t = a := by simpa using ht.symm
    subst hta
    have hlt : t < (mem ++ [(⟨v, none⟩ : Node)]).length := by
      simp; exact Nat.lt_succ_of_lt (hb t (by simp))
    refine Chain.cons t mem.length [mem.length] ?_ (Chain.last mem.length ?_)
    · rw [nextOf, getNode_setNext_self _ t _ hlt]
    · have hne : mem.length ≠ t := by
        intro hcon; have := hb t (by simp); omega
      rw [nextOf, getNode_setNext_ne _ t mem.length _ hne,
        getNode_append_self]
  | cons a b l h tc ih =>
    rcases chain_head mem b l tc with ⟨l', rfl⟩
    rw [List.getLast?_cons_cons] at ht
    have hnt : nextOf mem t = none := chain_last_next mem b _ tc t ht
    have hat : a ≠ t := by
      intro hcon; rw [hcon, hnt] at h; exact Option.noConfusion h
    refine Chain.cons a b _ ?_ (ih (fun c hc' => hb c (by simp [hc'])) ht)
    · rw [nextOf, getNode_setNext_ne _ t a _ hat,
        getNode_append mem _ a (hb a (by simp))]
      exact h

theorem chain_cons_inv (mem : List Node) (a x y : Nat) (l : List Nat)
    (hc : Chain mem a (x :: y :: l)) :
    a = x ∧ nextOf mem a = some y ∧ Chain mem y (y :: l) := by
  cases hc
  rename_i b h tc
  obtain ⟨l', heq⟩ := chain_head mem b (y :: l) tc
  injection heq with h1 h2
  subst h1
  exact ⟨rfl, h, tc⟩

theorem chain_singleton_inv (mem : List Node) (a x : Nat)
    (hc : Chain mem a [x]) : a = x ∧ nextOf mem a = none := by
  cases hc
  · rename_i h; exact ⟨rfl, h⟩
  · rename_i b h tc
    obtain ⟨l', heq⟩ := chain_head mem b [] tc
    simp at heq

/-! ### Specifications of the queue operations -/

theorem qinv_create : QInv createQueue [0] :=
  { chain := Chain.last 0 rfl
    nodup := by decide
    bounded := by decide
    tail_last := rfl
    size_eq := rfl }

/-- A successful `enqueue` under the invariant: the call returns in a
single iteration of the CAS loop, links one fresh node at the tail,
leaves `head` alone, increments `size` by one, and appends `value` to
the abstract queue contents. -/
theorem enqueue_spec (q : Queue) (l : List Nat) (v : Int) (hinv : QInv q l) :
    ∃ q', enqueue q v = some q' ∧
      QInv q' (l ++ [q.mem.length]) ∧
      q'.head = q.head ∧ q'.size = q.size + 1 ∧
      q'.mem.length = q.mem.length + 1 ∧
      queueVals q'.mem (l ++ [q.mem.length]) = queueVals q.mem l ++ [v] := by
  have htail_mem : q.tail ∈ l := mem_of_getLast? l q.tail hinv.tail_last
  have htail_lt : q.tail < q.mem.length := hinv.bounded q.tail htail_mem
  have hnext : nextOf (q.mem ++ [⟨v, none⟩]) q.tail = none := by
    rw [nextOf, getNode_append _ _ _ htail_lt]
    exact chain_last_next q.mem q.head l hinv.chain q.tail hinv.tail_last
  refine ⟨⟨setNext (q.mem ++ [⟨v, none⟩]) q.tail (some q.mem.length),
    q.head, q.mem.length, q.size + 1⟩, ?_, ?_, rfl, rfl, ?_, ?_⟩
  · rw [enqueue, enqueueLoop]
    simp only [hnext]
  · constructor
    · exact chain_snoc q.mem q.head q.tail l v hinv.chain hinv.bounded
        hinv.tail_last
    · refine List.Nodup.append hinv.nodup (List.nodup_singleton _) ?_
      intro a ha hb
      have := hinv.bounded a ha
      simp at hb
      omega
    · intro a ha
      simp only [length_setNext, List.length_append, List.length_cons,
        List.length_nil]
      simp at ha
      rcases ha with ha | ha
      · have := hinv.bounded a ha; omega
      · omega
    · simp
    · have h := hinv.size_eq
      simp only [List.length_append, List.length_cons, List.length_nil]
      push_cast
      push_cast at h
      omega
  · simp [length_setNext]
  · rcases chain_head q.mem q.head l hinv.chain with ⟨l', rfl⟩
    simp only [queueVals, List.cons_append, List.tail_cons, List.map_append]
    congr 1
    · apply List.map_congr_left
      intro a ha
      have halt : a < q.mem.length := hinv.bounded a (by simp [ha])
      rw [valOf_setNext, valOf_append _ _ _ halt]
    · simp only [List.map_cons, List.map_nil]
      rw [valOf_setNext, valOf, getNode_append_self]

/-- `dequeue` on an empty queue (`head == tail`, `head->next == NULL`)
returns `-1` and leaves the queue untouched (C lines 112-115). -/
theorem dequeue_spec_empty (q : Queue) (hh : q.head = q.tail)
    (hn : nextOf q.mem q.head = none) : dequeue q = some (-1, q) := by
  rw [dequeue, dequeueLoop, if_pos hh]
  simp only [hn]

/-- `dequeue` on a non-empty queue under the invariant: returns the
value of `head->next`, swings `head` forward, decrements `size`, and
re-establishes the invariant on the rest of the chain. -/
theorem dequeue_spec_cons (q : Queue) (a b : Nat) (l'' : List Nat)
    (hinv : QInv q (a :: b :: l'')) :
    dequeue q = some (valOf q.mem b, { q with head := b, size := q.size - 1 }) ∧
    QInv { q with head := b, size := q.size - 1 } (b :: l'') := by
  obtain ⟨hax, hnext, hchain'⟩ := chain_cons_inv q.mem q.head a b l'' hinv.chain
  have htail_mem : q.tail ∈ b :: l'' := by
    have h1 := hinv.tail_last
    rw [List.getLast?_cons_cons] at h1
    exact mem_of_getLast? _ _ h1
  have hhead_ne : q.head ≠ q.tail := by
    intro hcon
    have h2 := hinv.nodup
    rw [← hax] at h2
    rw [hcon] at h2
    exact (List.nodup_cons.mp h2).1 htail_mem
  constructor
  · rw [dequeue, dequeueLoop, if_neg hhead_ne]
    simp only [hnext]
  · constructor
    · exact hchain'
    · exact (List.nodup_cons.mp hinv.nodup).2
    · intro c hc
      exact hinv.bounded c (by simp [List.mem_cons] at hc ⊢; tauto)
    · have h1 := hinv.tail_last
      rw [List.getLast?_cons_cons] at h1
      exact h1
    · have h := hinv.size_eq
      simp only [List.length_cons] at h ⊢
      push_cast at h ⊢
      omega

/-- The size of a queue satisfying the invariant equals the number of
unconsumed values. -/
theorem qinv_size_eq_vals (q : Queue) (l : List Nat) (hinv : QInv q l) :
    q.size = ((queueVals q.mem l).length : Int) := by
  rcases chain_head _ _ _ hinv.chain with ⟨l1, rfl⟩
  have h := hinv.size_eq
  simp only [queueVals, List.tail_cons, List.length_map, List.length_cons] at h ⊢
  push_cast at h ⊢
  omega

/-! ### Sequences of operations -/

/-- Enqueue a list of values in order. -/
def enqueueAll : Queue → List Int → Option Queue
  | q, [] => some q
  | q, v :: vs =>
    match enqueue q v with
    | none => none
    | some q' => enqueueAll q' vs

/-- Dequeue `n` times, collecting the returned values. -/
def drainN : Queue → Nat → Option (List Int × Queue)
  | q, 0 => some ([], q)
  | q, n + 1 =>
    match dequeue q with
    | none => none
    | some (v, q') =>
      match drainN q' n with
      | none => none
      | some (vs, q'') => some (v :: vs, q'')

/-- A queue operation: enqueue a value, or dequeue. -/
inductive QOp where
  | enq (v : Int)
  | deq
deriving DecidableEq

def applyOp (q : Queue) : QOp → Option Queue
  | .enq v => enqueue q v
  | .deq => Option.map Prod.snd (dequeue q)

def applyOps : Queue → List QOp → Option Queue
  | q, [] => some q
  | q, op :: ops =>
    match applyOp q op with
    | none => none
    | some q' => applyOps q' ops

theorem enqueueAll_spec (vs : List Int) :
    ∀ (q : Queue) (l : List Nat), QInv q l →
    ∃ q' l', enqueueAll q vs = some q' ∧ QInv q' l' ∧
      queueVals q'.mem l' = queueVals q.mem l ++ vs := by
  induction vs with
  | nil => intro q l h; exact ⟨q, l, rfl, h, by simp⟩
  | cons v vs ih =>
    intro q l h
    obtain ⟨q1, henq, hinv1, _, _, _, hvals⟩ := enqueue_spec q l v h
    obtain ⟨q', l', hall, hinv', hvals'⟩ := ih q1 (l ++ [q.mem.length]) hinv1
    refine ⟨q', l', ?_, hinv', ?_⟩
    · rw [enqueueAll, henq]
      exact hall
    · rw [hvals', hvals]
      simp

theorem drainN_spec (vs : List Int) :
    ∀ (q : Queue) (l : List Nat), QInv q l → queueVals q.mem l = vs →
    ∃ q' l', drainN q vs.length = some (vs, q') ∧ QInv q' l' ∧
      queueVals q'.mem l' = [] := by
  induction vs with
  | nil => intro q l h hv; exact ⟨q, l, rfl, h, hv⟩
  | cons v vs ih =>
    intro q l h hv
    rcases chain_head _ _ _ h.chain with ⟨l1, rfl⟩
    cases l1 with
    | nil => simp [queueVals] at hv
    | cons b l'' =>
      have hv' : valOf q.mem b = v ∧ List.map (valOf q.mem) l'' = vs := by
        simpa [queueVals] using hv
      obtain ⟨hdq, hinv'⟩ := dequeue_spec_cons q q.head b l'' h
      obtain ⟨q', l', hdrain, hinvf, hvalsf⟩ :=
        ih _ (b :: l'') hinv' (by simpa [queueVals] using hv'.2)
      refine ⟨q', l', ?_, hinvf, hvalsf⟩
      rw [List.length_cons, drainN, hdq, hv'.1]
      simp only [hdrain]

theorem applyOps_inv (ops : List QOp) :
    ∀ q l, QInv q l → ∀ q', applyOps q ops = some q' → ∃ l', QInv q' l' := by
  induction ops with
  | nil =>
    intro q l hinv q' heq
    rw [applyOps] at heq
    exact ⟨l, Option.some.inj heq ▸ hinv⟩
  | cons op ops ih =>
    intro q l hinv q' heq
    cases op with
    | enq v =>
      obtain ⟨q1, henq, hinv1, _⟩ := enqueue_spec q l v hinv
      rw [applyOps, applyOp, henq] at heq
      exact ih q1 _ hinv1 q' heq
    | deq =>
      rcases chain_head _ _ _ hinv.chain with ⟨l1, rfl⟩
      cases l1 with
      | nil =>
        obtain ⟨_, hn⟩ := chain_singleton_inv _ _ _ hinv.chain
        have hh : q.head = q.tail := by simpa using hinv.tail_last
        rw [applyOps, applyOp, dequeue_spec_empty q hh hn] at heq
        exact ih q _ hinv q' heq
      | cons b l'' =>
        obtain ⟨hdq, hinv'⟩ := dequeue_spec_cons q q.head b l'' hinv
        rw [applyOps, applyOp, hdq] at heq
        exact ih _ _ hinv' q' heq

/-! ## The node arena (C lines 129-156) -/

def MEMORY_POOL_SIZE : Int := 10000000

/-- The memory pool (C lines 130-133).  Only the atomic bump `index`
participates in allocation; the node array is written by the producer
after allocation and never read back through the pool. -/
structure MemoryPool where
  index : Int
deriving DecidableEq

/-- `createMemoryPool` (C lines 135-143): `index` starts at 0. -/
def createMemoryPool : MemoryPool := ⟨0⟩

/-- `allocateNode` (C lines 145-152): atomically claim
`idx = index++`; if the claimed pre-increment `idx` is at or above
capacity the process aborts (`none`); otherwise slot `idx` is
returned. -/
def allocateNode (pool : MemoryPool) : Option (Int × MemoryPool) :=
  let idx := pool.index
  if idx ≥ MEMORY_POOL_SIZE then none
  else some (idx, ⟨pool.index + 1⟩)

/-- A run of `k` consecutive allocations, collecting the claimed slot
indices. -/
def allocateRun : MemoryPool → Nat → Option (List Int × MemoryPool)
  | pool, 0 => some ([], pool)
  | pool, k + 1 =>
    match allocateNode pool with
    | none => none
    | some (i, pool') =>
      match allocateRun pool' k with
      | none => none
      | some (is, pool'') => some (i :: is, pool'')

theorem allocateRun_spec (k : Nat) :
    ∀ pool is pool', allocateRun pool k = some (is, pool') →
      pool'.index = pool.index + k ∧
      (∀ i ∈ is, pool.index ≤ i ∧ i < pool'.index) ∧
      List.Sorted (· < ·) is := by
  induction k with
  | zero =>
    intro pool is pool' heq
    rw [allocateRun] at heq
    obtain ⟨h1, h2⟩ := Prod.mk.injEq .. ▸ Option.some.inj heq
    subst h1; subst h2
    exact ⟨by simp, by simp, List.sorted_nil⟩
  | succ k ih =>
    intro pool is pool' heq
    rw [allocateRun] at heq
    by_cases hcap : pool.index ≥ MEMORY_POOL_SIZE
    · simp [allocateNode, hcap] at heq
    · simp only [allocateNode, if_neg hcap] at heq
      cases hrun : allocateRun ⟨pool.index + 1⟩ k with
      | none => rw [hrun] at heq; exact absurd heq (by simp)
      | some p =>
        obtain ⟨is', p''⟩ := p
        rw [hrun] at heq
        obtain ⟨h1, h2⟩ := Prod.mk.injEq .. ▸ Option.some.inj heq
        subst h1; subst h2
        obtain ⟨hidx, hbound, hsorted⟩ := ih ⟨pool.index + 1⟩ is' _ hrun
        simp only [MemoryPool.mk.injEq] at hidx ⊢
        refine ⟨by push_cast at hidx ⊢; omega, ?_, ?_⟩
        · intro i hi
          rcases List.mem_cons.mp hi with rfl | hi'
          · constructor
            · exact le_refl _
            · have := hidx; push_cast at this ⊢; omega
          · obtain ⟨hlo, hhi⟩ := hbound i hi'
            simp at hlo
            exact ⟨by omega, hhi⟩
        · rw [List.sorted_cons]
          refine ⟨?_, hsorted⟩
          intro b hb
          have := (hbound b hb).1
          simp at this
          omega

/-! ## The producer / worker system (C lines 159-258)

An interleaving small-step semantics.  The queue is abstracted to the
list of its unconsumed values — the abstraction computed by
`queueVals` and maintained by `enqueue_spec` / `dequeue_spec_cons` /
`dequeue_spec_empty`; its advisory `size` is the list length.  Each
step is one linearized action of the producer (`main`, lines 229-242)
or of a worker (`primeCounterWorker`, lines 167-183). -/

def MAX_QUEUE_SIZE : Int := 256

/-- The worker loop guard (C line 172):
`!atomic_load(done) || atomic_load(size) > 0`. -/
def workerContinues (done : Bool) (size : Int) : Bool :=
  !done || decide (size > 0)

/-- A worker's handling of one dequeued result (C lines 173-180): a
result of `-1` is treated as `Empty` (sleep, `continue`); any other
value is tested for primality, incrementing the shared counter on
success. -/
def workerStepCount (num : Int) (counter : Nat) : Nat :=
  if num == -1 then counter
  else if isPrime num then counter + 1 else counter

/-- Shared state of `main` and the workers (C lines 159-164, 193-258):
remaining input, unconsumed queue contents, the `done` flag, the
`total_counter`, and the number of workers that have not yet exited. -/
structure SysState where
  input : List Int
  queue : List Int
  done : Bool
  counter : Nat
  activeWorkers : Nat
deriving DecidableEq

def initState (workers : Nat) (input : List Int) : SysState :=
  ⟨input, [], false, 0, workers⟩

/-- One interleaved step of the system. -/
inductive SysStep : SysState → SysState → Prop
  /-- Producer reads one value and enqueues it, enabled only after the
  backpressure wait observes `size < MAX_QUEUE_SIZE` (C lines 231-238). -/
  | produce (s : SysState) (v : Int) (rest : List Int)
      (hin : s.input = v :: rest)
      (hback : (s.queue.length : Int) < MAX_QUEUE_SIZE) :
      SysStep s { s with input := rest, queue := s.queue ++ [v] }
  /-- Producer exhausts the input and sets `done` (C line 242). -/
  | finish (s : SysState) (hin : s.input = []) (hdone : s.done = false) :
      SysStep s { s with done := true }
  /-- A worker dequeues the front value and processes it
  (C lines 173-180). -/
  | consume (s : SysState) (v : Int) (rest : List Int)
      (hw : 0 < s.activeWorkers) (hq : s.queue = v :: rest) :
      SysStep s { s with queue := rest,
                         counter := workerStepCount v s.counter }
  /-- A worker polls an empty queue, sleeps, and retries
  (C lines 174-177). -/
  | idle (s : SysState) (hw : 0 < s.activeWorkers) (hq : s.queue = []) :
      SysStep s s
  /-- A worker's loop guard fails and it exits (C lines 172, 182). -/
  | exit (s : SysState) (hw : 0 < s.activeWorkers)
      (hguard : workerContinues s.done (s.queue.length : Int) = false) :
      SysStep s { s with activeWorkers := s.activeWorkers - 1 }

def Reachable (workers : Nat) (input : List Int) (s : SysState) : Prop :=
  Relation.ReflTransGen SysStep (initState workers input) s

/-- The producer has signalled `done` and every worker has exited: the
program is at the final report (C line 249). -/
def Terminal (s : SysState) : Prop := s.done = true ∧ s.activeWorkers = 0

/-- Number of list elements satisfying the primality predicate. -/
def countPrimes (xs : List Int) : Nat := List.countP (fun v => isPrime v) xs

/-- `isPrime (-1)` is false, so a worker's skip of a dequeued `-1`
never loses a prime. -/
theorem workerStepCount_eq (v : Int) (c : Nat) :
    workerStepCount v c = c + (if isPrime v then 1 else 0) := by
  rw [workerStepCount]
  by_cases hv : v = -1
  · subst hv
    have h : isPrime (-1) = false := by decide
    simp [h]
  · simp only [beq_iff_eq, if_neg hv]
    by_cases hp : isPrime v <;> simp [hp]

structure SysInv (input : List Int) (s : SysState) : Prop where
  count_eq :
    s.counter + countPrimes s.queue + countPrimes s.input = countPrimes input
  done_input : s.done = true → s.input = []
  no_workers : s.activeWorkers = 0 → s.queue = [] ∧ s.input = []
  backpressure : (s.queue.length : Int) ≤ MAX_QUEUE_SIZE

theorem workerContinues_false_iff (done : Bool) (size : Int) :
    workerContinues done size = false ↔ (done = true ∧ size ≤ 0) := by
  cases done
  · simp [workerContinues]
  · simp [workerContinues]

theorem sysInv_init (workers : Nat) (hw : 1 ≤ workers) (input : List Int) :
    SysInv input (initState workers input) where
  count_eq := by simp [initState, countPrimes]
  done_input := by intro h; simp [initState] at h
  no_workers := by
    intro h
    exfalso
    have hh : workers = 0 := by simpa [initState] using h
    omega
  backpressure := by simp [initState, MAX_QUEUE_SIZE]

theorem sysInv_step (input : List Int) (s s' : SysState)
    (hinv : SysInv input s) (hstep : SysStep s s') : SysInv input s' := by
  cases hstep with
  | produce v rest hin hback =>
    refine ⟨?_, ?_, ?_, ?_⟩
    · have h := hinv.count_eq
      rw [hin] at h
      dsimp only
      simp only [countPrimes, List.countP_append, List.countP_cons,
        List.countP_nil] at h ⊢
      omega
    · intro hd
      dsimp only at hd
      have h2 := hinv.done_input hd
      rw [hin] at h2
      exact absurd h2 (by simp)
    · intro h0
      dsimp only at h0
      have h2 := (hinv.no_workers h0).2
      rw [hin] at h2
      exact absurd h2 (by simp)
    · dsimp only
      simp only [List.length_append, List.length_cons, List.length_nil]
      omega
  | finish hin hdone =>
    refine ⟨hinv.count_eq, ?_, ?_, hinv.backpressure⟩
    · intro _; exact hin
    · intro h0
      exact hinv.no_workers h0
  | consume v rest hw hq =>
    refine ⟨?_, hinv.done_input, ?_, ?_⟩
    · have h := hinv.count_eq
      rw [hq] at h
      dsimp only
      rw [workerStepCount_eq]
      simp only [countPrimes, List.countP_cons] at h ⊢
      omega
    · intro h0
      dsimp only at h0
      exact absurd h0 (by omega)
    · have h := hinv.backpressure
      rw [hq] at h
      dsimp only
      simp only [List.length_cons] at h
      omega
  | idle hw hq => exact hinv
  | exit hw hguard =>
    obtain ⟨hdone, hlen⟩ := (workerContinues_false_iff _ _).mp hguard
    have hqnil : s.queue = [] := by
      have h0 : s.queue.length = 0 := by omega
      exact List.eq_nil_of_length_eq_zero h0
    refine ⟨hinv.count_eq, hinv.done_input, ?_, hinv.backpressure⟩
    intro _
    exact ⟨hqnil, hinv.done_input hdone⟩

theorem sysInv_reachable (workers : Nat) (hw : 1 ≤ workers)
    (input : List Int) (s : SysState) (hreach : Reachable workers input s) :
    SysInv input s := by
  induction hreach with
  | refl => exact sysInv_init workers hw input
  | tail hab hbc ih => exact sysInv_step input _ _ ih hbc

/-! ## Producer body and final cleanup (C lines 185-191, 235-237) -/

/-- One iteration of the producer loop body (C lines 235-237):
`node = allocateNode(memoryPool); node->value = num;
enqueue(queue, node->value);` — `enqueue` receives only the integer
`node->value`, and allocates the node it links itself. -/
def producerIter (pool : MemoryPool) (q : Queue) (num : Int) :
    Option (MemoryPool × Queue) :=
  match allocateNode pool with
  | none => none
  | some (_idx, pool') =>
    match enqueue q num with
    | none => none
    | some q' => some (pool', q')

/-- The walk of `freeQueue` (C lines 186-190): from `head`, follow
`next` and `free` each visited node individually; the result lists
the freed addresses in order. -/
def freeQueueLoop (mem : List Node) : Option Nat → Nat → List Nat
  | _, 0 => []
  | none, _ + 1 => []
  | some a, fuel + 1 => a :: freeQueueLoop mem (nextOf mem a) fuel

/-- `freeQueue` (C lines 185-191): the addresses it frees, one
`free` call each. -/
def freeQueueAddrs (q : Queue) : List Nat :=
  freeQueueLoop q.mem (some q.head) q.mem.length

example : producerIter createMemoryPool createQueue 5 =
    some (⟨1⟩, ⟨[⟨0, some 1⟩, ⟨5, none⟩], 0, 1, 1⟩) := by decide
example : freeQueueAddrs ⟨[⟨0, some 1⟩, ⟨5, none⟩], 0, 1, 1⟩ = [0, 1] := by decide

/-! ## The claims -/

/-- C1: for every finite input sequence, any terminal execution of the
producer/worker system — for any worker count (1, 2, 8, …) — reports a
total equal to the number of input elements satisfying the primality
predicate; the right-hand side does not depend on `workers`, so all
worker counts report the same total, and an empty input reports
`countPrimes [] = 0`. -/
theorem finalCount_correct (workers : Nat) (hw : 1 ≤ workers)
    (input : List Int) (s : SysState)
    (hreach : Reachable workers input s) (hterm : Terminal s) :
    s.counter = countPrimes input := by
  have hinv := sysInv_reachable workers hw input s hreach
  obtain ⟨hq, hi⟩ := hinv.no_workers hterm.2
  have h := hinv.count_eq
  rw [hq, hi] at h
  simpa [countPrimes] using h

/-- Witness for C1: with one worker and input `[2]`, the execution
produce–consume–finish–exit reaches a terminal state whose counter is
`countPrimes [2] = 1`. -/
theorem finalCount_correct_witness :
    (1 ≤ 1) ∧ Terminal ⟨[], [], true, 1, 0⟩ ∧
    Reachable 1 [2] ⟨[], [], true, 1, 0⟩ ∧
    (⟨[], [], true, 1, 0⟩ : SysState).counter = countPrimes [2] := by
  have hreach : Reachable 1 [2] ⟨[], [], true, 1, 0⟩ :=
    Relation.ReflTransGen.head (SysStep.produce _ 2 [] rfl (by decide))
      (Relation.ReflTransGen.head (SysStep.consume _ 2 [] (by decide) rfl)
        (Relation.ReflTransGen.head (SysStep.finish _ rfl rfl)
          (Relation.ReflTransGen.head (SysStep.exit _ (by decide) (by decide))
            Relation.ReflTransGen.refl)))
  exact ⟨by decide, ⟨rfl, rfl⟩, hreach,
    finalCount_correct 1 (by decide) [2] _ hreach ⟨rfl, rfl⟩⟩

/-- C2: enqueuing any sequence `xs` into a fresh queue succeeds, and
`xs.length` dequeues return exactly `xs`, in order — every value
exactly once (conservation), earlier-enqueued values never after
later-enqueued ones (FIFO at the structure). -/
theorem enqueue_conservation_fifo (xs : List Int) :
    ∃ q q', enqueueAll createQueue xs = some q ∧
      drainN q xs.length = some (xs, q') := by
  obtain ⟨q, l, hall, hinv, hvals⟩ :=
    enqueueAll_spec xs createQueue [0] qinv_create
  obtain ⟨q', l', hdrain, _, _⟩ := drainN_spec xs q l hinv (by simpa using hvals)
  exact ⟨q, q', hall, hdrain⟩

/-- C3: `isPrime n` returns `true` exactly when `n` is a prime
(natural) number; on `[1,…,10]` exactly 2, 3, 5, 7 pass.  As a Lean
function it is by construction deterministic, total over integers and
side-effect free. -/
theorem isPrime_correct :
    (∀ n : Int, isPrime n = true ↔ (2 ≤ n ∧ Nat.Prime n.toNat)) ∧
    List.filter (fun v => isPrime v) [1,2,3,4,5,6,7,8,9,10] = [2,3,5,7] :=
  ⟨isPrime_eq_true_iff, by decide⟩

/-- C4: the worker loop guard fails exactly when `done` is set and
`size ≤ 0`; the only step that lets a worker exit requires `done` set
and an empty queue; and from any state with `done` set and queue and
input empty, all workers exit in one poll cycle each (a trace of
exactly `activeWorkers` steps reaches the all-exited state). -/
theorem worker_drain_termination :
    (∀ done size, workerContinues done size = false ↔
      (done = true ∧ size ≤ 0)) ∧
    (∀ s s', SysStep s s' → s'.activeWorkers < s.activeWorkers →
      s.done = true ∧ s.queue = []) ∧
    (∀ s : SysState, s.done = true → s.queue = [] → s.input = [] →
      Relation.ReflTransGen SysStep s { s with activeWorkers := 0 }) := by
  refine ⟨workerContinues_false_iff, ?_, ?_⟩
  · intro s s' hstep hlt
    cases hstep with
    | produce v rest hin hback => dsimp only at hlt; omega
    | finish hin hdone => dsimp only at hlt; omega
    | consume v rest hw hq => dsimp only at hlt; omega
    | idle hw hq => omega
    | exit hw hguard =>
      obtain ⟨hdone, hlen⟩ := (workerContinues_false_iff _ _).mp hguard
      exact ⟨hdone, List.eq_nil_of_length_eq_zero (by omega)⟩
  · intro s hd hq hi
    obtain ⟨inp, qu, dn, cnt, aw⟩ := s
    dsimp only at hd hq hi ⊢
    subst hd; subst hq; subst hi
    induction aw with
    | zero => exact Relation.ReflTransGen.refl
    | succ n ih =>
      exact Relation.ReflTransGen.head
        (SysStep.exit ⟨[], [], true, cnt, n + 1⟩ (Nat.succ_pos n) rfl) ih

/-- Witness for C4: the guard fails at `done = true, size = 0`; and
from a drained state with two live workers, two exit steps reach the
all-exited state. -/
theorem worker_drain_termination_witness :
    workerContinues true 0 = false ∧
    Relation.ReflTransGen SysStep ⟨[], [], true, 3, 2⟩ ⟨[], [], true, 3, 0⟩ :=
  ⟨(worker_drain_termination.1 true 0).mpr ⟨rfl, by decide⟩,
    worker_drain_termination.2.2 ⟨[], [], true, 3, 2⟩ rfl rfl rfl⟩

/-- C5: under the structural invariant, `dequeue` returns the `Empty`
signal — `-1` with the queue (head, tail, size) completely unchanged —
exactly when the queue holds no unconsumed value, i.e. `head == tail`
and `head->next == NULL`. -/
theorem dequeue_empty_characterization (q : Queue) (l : List Nat)
    (hinv : QInv q l) :
    dequeue q = some (-1, q) ↔
      (q.head = q.tail ∧ nextOf q.mem q.head = none) := by
  constructor
  · intro hdq
    rcases chain_head _ _ _ hinv.chain with ⟨l1, rfl⟩
    cases l1 with
    | nil =>
      obtain ⟨_, hn⟩ := chain_singleton_inv _ _ _ hinv.chain
      have hh : q.head = q.tail := by simpa using hinv.tail_last
      exact ⟨hh, hn⟩
    | cons b l'' =>
      obtain ⟨hdq', _⟩ := dequeue_spec_cons q q.head b l'' hinv
      rw [hdq'] at hdq
      have hpair := Option.some.inj hdq
      have hq2 : ({ q with head := b, size := q.size - 1 } : Queue) = q :=
        congrArg Prod.snd hpair
      have hsz : q.size - 1 = q.size := congrArg Queue.size hq2
      omega
  · intro ⟨hh, hn⟩
    exact dequeue_spec_empty q hh hn

/-- Witness for C5: the fresh queue satisfies the invariant and is
empty, so `dequeue` returns `-1` leaving it unchanged. -/
theorem dequeue_empty_characterization_witness :
    QInv createQueue [0] ∧
    (dequeue createQueue = some (-1, createQueue) ↔
      (createQueue.head = createQueue.tail ∧
        nextOf createQueue.mem createQueue.head = none)) :=
  ⟨qinv_create, dequeue_empty_characterization createQueue [0] qinv_create⟩

/-- C6: `allocateNode` fails (fatally) exactly when the pre-increment
index is at or above `MEMORY_POOL_SIZE`; a success returns the slot at
the claimed index and advances the index by one, so the index never
decreases and any run of successful allocations claims pairwise
distinct slots. -/
theorem allocateNode_contract :
    (∀ pool, allocateNode pool = none ↔ MEMORY_POOL_SIZE ≤ pool.index) ∧
    (∀ pool idx pool', allocateNode pool = some (idx, pool') →
      idx = pool.index ∧ pool'.index = pool.index + 1) ∧
    (∀ k pool is pool', allocateRun pool k = some (is, pool') →
      is.Nodup ∧ pool.index ≤ pool'.index) := by
  refine ⟨?_, ?_, ?_⟩
  · intro pool
    by_cases h : pool.index ≥ MEMORY_POOL_SIZE
    · simp only [allocateNode, if_pos h]
      constructor
      · intro _; omega
      · intro _; trivial
    · simp only [allocateNode, if_neg h]
      constructor
      · intro hc; exact absurd hc (by simp)
      · intro hc; omega
  · intro pool idx pool' heq
    by_cases h : pool.index ≥ MEMORY_POOL_SIZE
    · simp [allocateNode, h] at heq
    · simp only [allocateNode, if_neg h] at heq
      obtain ⟨h1, h2⟩ := Prod.mk.injEq .. ▸ Option.some.inj heq
      refine ⟨h1.symm, ?_⟩
      rw [← h2]
  · intro k pool is pool' heq
    obtain ⟨hidx, _, hsorted⟩ := allocateRun_spec k pool is pool' heq
    refine ⟨hsorted.nodup, ?_⟩
    rw [hidx]
    omega

/-- Witness for C6: a run of three allocations from a fresh pool
claims slots 0, 1, 2 — pairwise distinct — and the index climbs from
0 to 3. -/
theorem allocateNode_contract_witness :
    allocateRun ⟨0⟩ 3 = some ([0, 1, 2], ⟨3⟩) ∧
    ([0, 1, 2] : List Int).Nodup ∧
    (⟨0⟩ : MemoryPool).index ≤ (⟨3⟩ : MemoryPool).index := by
  have h : allocateRun ⟨0⟩ 3 = some ([0, 1, 2], ⟨3⟩) := by decide
  obtain ⟨h1, h2⟩ := allocateNode_contract.2.2 3 ⟨0⟩ [0, 1, 2] ⟨3⟩ h
  exact ⟨h, h1, h2⟩

/-- C7: under the invariant a successful `enqueue` increments `size`
by one, a dequeue of a value decrements it by one, an `Empty` dequeue
leaves the queue (hence `size`) unchanged, and in every state
reachable by a quiescent (sequential) run of operations `size` equals
the number of unconsumed values. -/
theorem size_mirrors_operations :
    (∀ q l v, QInv q l → ∃ q', enqueue q v = some q' ∧
      q'.size = q.size + 1) ∧
    (∀ q l, QInv q l → queueVals q.mem l = [] → dequeue q = some (-1, q)) ∧
    (∀ q l, QInv q l → queueVals q.mem l ≠ [] →
      ∃ v q', dequeue q = some (v, q') ∧ q'.size = q.size - 1) ∧
    (∀ ops q, applyOps createQueue ops = some q →
      ∃ l, QInv q l ∧ q.size = ((queueVals q.mem l).length : Int)) := by
  refine ⟨?_, ?_, ?_, ?_⟩
  · intro q l v hinv
    obtain ⟨q', henq, _, _, hsz, _, _⟩ := enqueue_spec q l v hinv
    exact ⟨q', henq, hsz⟩
  · intro q l hinv hvals
    rcases chain_head _ _ _ hinv.chain with ⟨l1, rfl⟩
    have hl1 : l1 = [] := by
      simpa [queueVals, List.map_eq_nil_iff] using hvals
    subst hl1
    obtain ⟨_, hn⟩ := chain_singleton_inv _ _ _ hinv.chain
    have hh : q.head = q.tail := by simpa using hinv.tail_last
    exact dequeue_spec_empty q hh hn
  · intro q l hinv hvals
    rcases chain_head _ _ _ hinv.chain with ⟨l1, rfl⟩
    cases l1 with
    | nil => exact absurd rfl hvals
    | cons b l'' =>
      obtain ⟨hdq, _⟩ := dequeue_spec_cons q q.head b l'' hinv
      exact ⟨_, _, hdq, rfl⟩
  · intro ops q heq
    obtain ⟨l, hinv⟩ := applyOps_inv ops createQueue [0] qinv_create q heq
    exact ⟨l, hinv, qinv_size_eq_vals q l hinv⟩

/-- Witness for C7: on the fresh queue, enqueuing 7 yields size 1; the
empty dequeue leaves it unchanged; the empty run of operations gives
size 0 = number of unconsumed values. -/
theorem size_mirrors_operations_witness :
    QInv createQueue [0] ∧
    (∃ q', enqueue createQueue 7 = some q' ∧
      q'.size = createQueue.size + 1) ∧
    dequeue createQueue = some (-1, createQueue) ∧
    (∃ l, QInv createQueue l ∧ createQueue.size =
      ((queueVals createQueue.mem l).length : Int)) :=
  ⟨qinv_create,
    size_mirrors_operations.1 createQueue [0] 7 qinv_create,
    size_mirrors_operations.2.1 createQueue [0] qinv_create rfl,
    size_mirrors_operations.2.2.2 [] createQueue rfl⟩

/-- C8: with the single producer of `main` gated by the backpressure
check `size >= MAX_QUEUE_SIZE`, the queue size never exceeds
`MAX_QUEUE_SIZE` in any reachable state. -/
theorem backpressure_bound (workers : Nat) (hw : 1 ≤ workers)
    (input : List Int) (s : SysState)
    (hreach : Reachable workers input s) :
    (s.queue.length : Int) ≤ MAX_QUEUE_SIZE :=
  (sysInv_reachable workers hw input s hreach).backpressure

/-- Witness for C8: the initial state with one worker and input `[5]`
is reachable and its queue size 0 is within the bound. -/
theorem backpressure_bound_witness :
    (1 ≤ 1) ∧ Reachable 1 [5] (initState 1 [5]) ∧
    ((initState 1 [5]).queue.length : Int) ≤ MAX_QUEUE_SIZE :=
  ⟨by decide, Relation.ReflTransGen.refl,
    backpressure_bound 1 (by decide) [5] _ Relation.ReflTransGen.refl⟩

/-- C9 (refuting evidence): on the single input value 5 the producer
claims arena slot 0 (the pool index advances to 1), but the node that
gets linked into the queue is the fresh node `malloc`ed inside
`enqueue` — the queue's node store grows from 1 node (the sentinel) to
2 — and the arena slot never enters the queue; `freeQueue` then frees
the chain nodes (addresses 0 and 1) individually, one `free` per
node.  This contradicts the claim that every linked node is an arena
slot and that no queue node is freed individually. -/
theorem node_provenance_failing :
    producerIter createMemoryPool createQueue 5 =
      some (⟨1⟩, ⟨[⟨0, some 1⟩, ⟨5, none⟩], 0, 1, 1⟩) ∧
    (⟨[⟨0, some 1⟩, ⟨5, none⟩], 0, 1, 1⟩ : Queue).mem.length =
      createQueue.mem.length + 1 ∧
    freeQueueAddrs ⟨[⟨0, some 1⟩, ⟨5, none⟩], 0, 1, 1⟩ = [0, 1] := by
  decide

/-- C10: enqueuing the value `-1` succeeds; its dequeue removes the
node (head moves) and decrements `size` to 0, yet returns `-1` — the
exact value `dequeue` returns for an empty queue — and the worker's
dispatch on a `-1` result leaves the counter untouched (the value is
never classified). -/
theorem dequeue_minus_one_conflation :
    enqueue createQueue (-1) = some ⟨[⟨0, some 1⟩, ⟨-1, none⟩], 0, 1, 1⟩ ∧
    dequeue ⟨[⟨0, some 1⟩, ⟨-1, none⟩], 0, 1, 1⟩ =
      some (-1, ⟨[⟨0, some 1⟩, ⟨-1, none⟩], 1, 1, 0⟩) ∧
    (⟨[⟨0, some 1⟩, ⟨-1, none⟩], 1, 1, 0⟩ : Queue).size = 0 ∧
    (⟨[⟨0, some 1⟩, ⟨-1, none⟩], 1, 1, 0⟩ : Queue).head ≠ createQueue.head ∧
    dequeue createQueue = some (-1, createQueue) ∧
    (∀ c : Nat, workerStepCount (-1) c = c) :=
  ⟨by decide, by decide, by decide, by decide, by decide, fun c => rfl⟩

end PrimeCounter
